import Mathlib

/-!
Shallow embedding of the GitHub organization statistics dashboard's analysis
function (`functions/github-analysis/index.ts`).  Strings from the JavaScript
side are modelled as `List Char`; JavaScript numbers used as counters are
`Nat`, timestamps (compared through `Date.getTime`) are `Int`, and the
floating-point percentages are modelled over `ℚ`.
-/

/-- Model of the characters removed by JavaScript `String.prototype.trim`
(the common ASCII whitespace plus NBSP; others do not occur here). -/
def jsIsWhitespace (c : Char) : Bool :=
  c = ' ' || c = '\t' || c = '\n' || c = '\r' || c = '\x0b' || c = '\x0c' || c = Char.ofNat 160

/-- Model of JavaScript `string.split(sep)` for a one-character separator:
splitting at every occurrence, keeping empty segments (including a trailing
one when the string ends with the separator). -/
def jsSplit (sep : Char) : List Char → List (List Char)
  | [] => [[]]
  | c :: rest =>
    if c = sep then [] :: jsSplit sep rest
    else
      match jsSplit sep rest with
      | [] => [[c]]
      | h :: t => (c :: h) :: t

/-- Model of JavaScript `string.trim()`. -/
def jsTrim (l : List Char) : List Char :=
  ((l.dropWhile jsIsWhitespace).reverse.dropWhile jsIsWhitespace).reverse

/-- The comment patterns record returned by `getCommentPatterns`. -/
structure CommentPatterns where
  single : List (List Char)
  multi : List (List Char × List Char)
deriving DecidableEq

/-- Extension of a path as computed by the source
(`'.' + filePath.split('.').pop()?.toLowerCase()`): a dot followed by the
lowercased last dot-separated segment of the path. -/
def extOfPath (path : List Char) : List Char :=
  '.' :: ((jsSplit '.' path).getLastD []).map Char.toLower

/-- The extension-to-language table of `getLanguageFromFile`. -/
def languageMap (ext : List Char) : String :=
  if ext = ".js".toList then "JavaScript"
  else if ext = ".jsx".toList then "JavaScript"
  else if ext = ".ts".toList then "TypeScript"
  else if ext = ".tsx".toList then "TypeScript"
  else if ext = ".py".toList then "Python"
  else if ext = ".java".toList then "Java"
  else if ext = ".cpp".toList then "C++"
  else if ext = ".c".toList then "C"
  else if ext = ".h".toList then "C/C++"
  else if ext = ".cs".toList then "C#"
  else if ext = ".php".toList then "PHP"
  else if ext = ".rb".toList then "Ruby"
  else if ext = ".go".toList then "Go"
  else if ext = ".rs".toList then "Rust"
  else if ext = ".swift".toList then "Swift"
  else if ext = ".kt".toList then "Kotlin"
  else if ext = ".scala".toList then "Scala"
  else if ext = ".html".toList then "HTML"
  else if ext = ".css".toList then "CSS"
  else if ext = ".scss".toList then "SCSS"
  else if ext = ".vue".toList then "Vue"
  else if ext = ".svelte".toList then "Svelte"
  else "Other"

/-- Embedding of `getLanguageFromFile` from the source. -/
def getLanguageFromFile (filePath : List Char) : String :=
  languageMap (extOfPath filePath)

/-- Embedding of `getCommentPatterns` from the source. -/
def getCommentPatterns (language : String) : CommentPatterns :=
  match language with
  | "JavaScript" => ⟨["//".toList], [("/*".toList, "*/".toList)]⟩
  | "TypeScript" => ⟨["//".toList], [("/*".toList, "*/".toList)]⟩
  | "Python" =>
      ⟨["#".toList],
        [("\x22\x22\x22".toList, "\x22\x22\x22".toList), ("\x27\x27\x27".toList, "\x27\x27\x27".toList)]⟩
  | "Java" => ⟨["//".toList], [("/*".toList, "*/".toList)]⟩
  | "C++" => ⟨["//".toList], [("/*".toList, "*/".toList)]⟩
  | "C" => ⟨["//".toList], [("/*".toList, "*/".toList)]⟩
  | "C#" => ⟨["//".toList], [("/*".toList, "*/".toList)]⟩
  | "PHP" => ⟨["//".toList, "#".toList], [("/*".toList, "*/".toList)]⟩
  | "Ruby" => ⟨["#".toList], [("=begin".toList, "=end".toList)]⟩
  | "Go" => ⟨["//".toList], [("/*".toList, "*/".toList)]⟩
  | "Rust" => ⟨["//".toList], [("/*".toList, "*/".toList)]⟩
  | "HTML" => ⟨[], [("<!--".toList, "-->".toList)]⟩
  | "CSS" => ⟨[], [("/*".toList, "*/".toList)]⟩
  | _ => ⟨[], []⟩

/-- Embedding of `isCommentLine` from the source: the trimmed line starts with a
single-line comment marker or with a multi-line comment opener. -/
def isCommentLine (line : List Char) (patterns : CommentPatterns) : Bool :=
  patterns.single.any (fun p => p.isPrefixOf line) ||
  patterns.multi.any (fun p => p.1.isPrefixOf line)

/-- The record of per-file line counts returned by `analyzeTextContent`. -/
structure LineStats where
  totalLines : Nat
  codeLines : Nat
  commentLines : Nat
  blankLines : Nat
deriving DecidableEq

/-- One step of the classification loop of `analyzeTextContent`, acting on the
(code, comment, blank) counters. -/
def classifyLine (patterns : CommentPatterns) (acc : Nat × Nat × Nat) (line : List Char) :
    Nat × Nat × Nat :=
  let trimmedLine := jsTrim line
  if trimmedLine = [] then (acc.1, acc.2.1, acc.2.2 + 1)
  else if isCommentLine trimmedLine patterns then (acc.1, acc.2.1 + 1, acc.2.2)
  else (acc.1 + 1, acc.2.1, acc.2.2)

/-- Embedding of `analyzeTextContent` from the source: split on line-feed, classify every
line as blank / comment / code, and report the counts together with the
number of lines. -/
def analyzeTextContent (content : List Char) (filePath : List Char) : LineStats :=
  let lines := jsSplit '\n' content
  let language := getLanguageFromFile filePath
  let patterns := getCommentPatterns language
  let counts := lines.foldl (classifyLine patterns) (0, 0, 0)
  { totalLines := lines.length
    codeLines := counts.1
    commentLines := counts.2.1
    blankLines := counts.2.2 }

/-- One entry of the recursive git tree handed to `getRepositoryFiles`. -/
structure TreeEntry where
  path : List Char
  type : String
  size : Nat
deriving DecidableEq

/-- One selected file together with the outcome of fetching its content:
`some content` models a successful base64-decoded fetch, `none` models a
failed fetch or a non-base64 encoding (both contribute zero counts). -/
structure FileInput where
  entry : TreeEntry
  fetch : Option (List Char)
deriving DecidableEq

/-- One value of the `languageBreakdown` record of a `CodeStats`. -/
structure LangEntry where
  lines : Nat
  files : Nat
  percentage : ℚ
deriving DecidableEq

/-- The fields of a `Repository` that the analysis path reads. -/
structure Repository where
  name : String
  default_branch : String
deriving DecidableEq

/-- The `CodeStats` record produced by `analyzeRepositoryCode`; the
string-keyed `languageBreakdown` object is modelled as an insertion-ordered
association list with unique keys. -/
structure CodeStats where
  repository : String
  branch : String
  totalLines : Nat
  codeLines : Nat
  commentLines : Nat
  blankLines : Nat
  fileCount : Nat
  languageBreakdown : List (String × LangEntry)
deriving DecidableEq

/-- Embedding of `analyzeFileContent` from the source: a file whose tree entry reports a
size above 100000 bytes is skipped with all-zero counts, as is a file whose
content could not be fetched and decoded. -/
def analyzeFileContent (file : FileInput) : LineStats :=
  if file.entry.size > 100000 then ⟨0, 0, 0, 0⟩
  else
    match file.fetch with
    | some content => analyzeTextContent content file.entry.path
    | none => ⟨0, 0, 0, 0⟩

/-- Update of `stats.languageBreakdown[language]` in the per-file loop of
`analyzeRepositoryCode`: create the entry (with zero percentage) on first
encounter, then add the file's line count and bump its file count. -/
def addToBreakdown : List (String × LangEntry) → String → Nat → List (String × LangEntry)
  | [], language, fileTotal => [(language, ⟨fileTotal, 1, 0⟩)]
  | (l, e) :: rest, language, fileTotal =>
    if l = language then
      (l, { e with lines := e.lines + fileTotal, files := e.files + 1 }) :: rest
    else
      (l, e) :: addToBreakdown rest language fileTotal

/-- One iteration of the per-file loop of `analyzeRepositoryCode`. -/
def accumulateFile (stats : CodeStats) (file : FileInput) : CodeStats :=
  let fileStats := analyzeFileContent file
  let language := getLanguageFromFile file.entry.path
  { stats with
      totalLines := stats.totalLines + fileStats.totalLines
      codeLines := stats.codeLines + fileStats.codeLines
      commentLines := stats.commentLines + fileStats.commentLines
      blankLines := stats.blankLines + fileStats.blankLines
      languageBreakdown := addToBreakdown stats.languageBreakdown language fileStats.totalLines }

/-- The percentage pass at the end of `analyzeRepositoryCode`: when the
repository's total is positive every language's percentage becomes
`lines / totalLines * 100`; otherwise the breakdown is left as is. -/
def recomputePercentages (total : Nat) (bd : List (String × LangEntry)) :
    List (String × LangEntry) :=
  bd.map fun e =>
    if total > 0 then (e.1, { e.2 with percentage := (e.2.lines : ℚ) / (total : ℚ) * 100 })
    else e

/-- Embedding of `analyzeRepositoryCode` from the source, applied to the selected files
(each bundled with its fetched content). -/
def analyzeRepositoryCode (repo : Repository) (files : List FileInput) : CodeStats :=
  let base : CodeStats :=
    { repository := repo.name
      branch := repo.default_branch
      totalLines := 0
      codeLines := 0
      commentLines := 0
      blankLines := 0
      fileCount := files.length
      languageBreakdown := [] }
  let accumulated := files.foldl accumulateFile base
  { accumulated with
      languageBreakdown := recomputePercentages accumulated.totalLines accumulated.languageBreakdown }

/-- The fixed extension allow-list of `getRepositoryFiles`. -/
def includeExtensions : List (List Char) :=
  [".js".toList, ".jsx".toList, ".ts".toList, ".tsx".toList, ".py".toList,
   ".java".toList, ".cpp".toList, ".c".toList, ".h".toList, ".cs".toList,
   ".php".toList, ".rb".toList, ".go".toList, ".rs".toList, ".swift".toList,
   ".kt".toList, ".scala".toList, ".clj".toList, ".hs".toList, ".ml".toList,
   ".r".toList, ".m".toList, ".pl".toList, ".sh".toList, ".sql".toList,
   ".html".toList, ".css".toList, ".scss".toList, ".less".toList,
   ".vue".toList, ".svelte".toList, ".dart".toList, ".lua".toList,
   ".nim".toList, ".zig".toList]

/-- Embedding of `getRepositoryFiles` from the source: keep the blob entries whose computed
extension is in the allow-list and truncate to the first 100. -/
def getRepositoryFiles (tree : List TreeEntry) : List TreeEntry :=
  (tree.filter fun item =>
    item.type == "blob" && includeExtensions.contains (extOfPath item.path)).take 100

/-- The fields of a member `User` record that the aggregation reads: the
login and the (possibly absent) profile email. -/
structure User where
  login : String
  email : Option String
deriving DecidableEq

/-- The fields of a pooled commit that the aggregation reads: the author
email and the author date (timestamps modelled as integers). -/
structure Commit where
  authorEmail : String
  authorDate : Int
deriving DecidableEq

/-- The fields of a pooled pull request that the aggregation reads. -/
structure PullRequest where
  userLogin : String
  additions : Nat
  deletions : Nat
  created_at : Int
deriving DecidableEq

/-- Model of the `while (hasMore)` pagination loop of `getRepositories` and
`getOrganizationMembers`: `server perPage page` is the page returned by the
provider for one request, `transform` is what the loop does to each returned
item before pushing it (identity for repositories, detail enrichment for
members).  The result pairs the trace of issued requests (perPage, page) with
the collected items; `none` models a run that exhausts any finite `fuel`,
i.e. a loop that never terminates. -/
def paginateRun (server : Nat → Nat → List α) (transform : α → β) :
    Nat → Nat → List (Nat × Nat) × Option (List β)
  | 0, _ => ([], none)
  | fuel + 1, page =>
    let data := server 100 page
    let processed := data.map transform
    if data.length = 100 then
      let rest := paginateRun server transform fuel (page + 1)
      ((100, page) :: rest.1, rest.2.map (processed ++ ·))
    else ([(100, page)], some processed)

/-- Embedding of `getRepositories` from the source: paginate from page 1, pushing each
returned repository unchanged. -/
def getRepositories (server : Nat → Nat → List Repository) (fuel : Nat) :
    List (Nat × Nat) × Option (List Repository) :=
  paginateRun server id fuel 1

/-- Embedding of `getOrganizationMembers` from the source: paginate from page 1; each
returned member is enriched with a detail request whose failure falls back to
the basic member record, and the loop condition still uses the length of the
page as returned. -/
def getOrganizationMembers (server : Nat → Nat → List User)
    (enrich : User → Option User) (fuel : Nat) :
    List (Nat × Nat) × Option (List User) :=
  paginateRun server (fun member => (enrich member).getD member) fuel 1

/-- Lookup in the insertion-ordered string-keyed map model of a JS `Map`. -/
def mapGet (m : List (String × β)) (k : String) : Option β :=
  (m.find? fun e => e.1 == k).map (·.2)

/-- Model of JS `Map.set`: replace the value of an existing key in place, else append. -/
def mapSet : List (String × β) → String → β → List (String × β)
  | [], k, v => [(k, v)]
  | (k', v') :: rest, k, v =>
    if k' = k then (k', v) :: rest else (k', v') :: mapSet rest k v

/-- One per-member value of the `userStatsMap` built by `computeUserStats`. -/
structure UserStatsEntry where
  user : User
  commits : Nat
  pullRequests : Nat
  linesAdded : Nat
  linesDeleted : Nat
  lastActivity : Int
deriving DecidableEq

/-- The member-roster initialization loop of `computeUserStats`. -/
def initUserStats (members : List User) : List (String × UserStatsEntry) :=
  members.foldl
    (fun m member =>
      mapSet m member.login
        { user := member, commits := 0, pullRequests := 0, linesAdded := 0,
          linesDeleted := 0, lastActivity := 0 })
    []

/-- Embedding of `findUserByEmail` from the source: the first member whose profile email
is exactly the given email (a member without an email never matches). -/
def findUserByEmail (members : List User) (email : String) : Option User :=
  members.find? fun member => member.email == some email

/-- One iteration of the commit loop of `computeUserStats`: look the author
up by email; the tally is updated only when the resulting login is truthy
(non-empty) and present in the map. -/
def processCommit (members : List User) (m : List (String × UserStatsEntry))
    (commit : Commit) : List (String × UserStatsEntry) :=
  match findUserByEmail members commit.authorEmail with
  | none => m
  | some u =>
    if u.login = "" then m
    else
      match mapGet m u.login with
      | none => m
      | some s =>
        mapSet m u.login
          { s with
              commits := s.commits + 1
              lastActivity :=
                if commit.authorDate > s.lastActivity then commit.authorDate
                else s.lastActivity }

/-- One iteration of the pull-request loop of `computeUserStats`, keyed by
the pull request author's login. -/
def processPullRequest (m : List (String × UserStatsEntry)) (pr : PullRequest) :
    List (String × UserStatsEntry) :=
  match mapGet m pr.userLogin with
  | none => m
  | some s =>
    mapSet m pr.userLogin
      { s with
          pullRequests := s.pullRequests + 1
          linesAdded := s.linesAdded + pr.additions
          linesDeleted := s.linesDeleted + pr.deletions
          lastActivity :=
            if pr.created_at > s.lastActivity then pr.created_at
            else s.lastActivity }

/-- The map state of `computeUserStats` after the roster initialization and
the commit loop. -/
def commitsFold (members : List User) (commits : List Commit) :
    List (String × UserStatsEntry) :=
  commits.foldl (processCommit members) (initUserStats members)

/-- Embedding of `computeUserStats` from the source: create one entry per member,
process the pooled commits, then the pooled pull requests, and return the
map's values in insertion order. -/
def computeUserStats (members : List User) (commits : List Commit)
    (pullRequests : List PullRequest) : List UserStatsEntry :=
  (pullRequests.foldl processPullRequest (commitsFold members commits)).map (·.2)

/-- Ordering used by the commit comparator
`(a, b) => new Date(b.author.date).getTime() - new Date(a.author.date).getTime()`:
`a` sorts before `b` when `a`'s date is the later one. -/
def commitDateGE (a b : Commit) : Prop := b.authorDate ≤ a.authorDate

instance : DecidableRel commitDateGE := fun a b => Int.decLe _ _

instance : IsTotal Commit commitDateGE :=
  ⟨fun a b => (le_total b.authorDate a.authorDate).imp (fun h => h) (fun h => h)⟩

instance : IsTrans Commit commitDateGE :=
  ⟨fun _ _ _ h1 h2 => le_trans h2 h1⟩

/-- Ordering used by the pull-request comparator on `created_at`. -/
def prDateGE (a b : PullRequest) : Prop := b.created_at ≤ a.created_at

instance : DecidableRel prDateGE := fun a b => Int.decLe _ _

instance : IsTotal PullRequest prDateGE :=
  ⟨fun a b => (le_total b.created_at a.created_at).imp (fun h => h) (fun h => h)⟩

instance : IsTrans PullRequest prDateGE :=
  ⟨fun _ _ _ h1 h2 => le_trans h2 h1⟩

/-- Ordering used by the language comparator `([, a], [, b]) => b - a`. -/
def langCountGE (a b : String × Nat) : Prop := b.2 ≤ a.2

instance : DecidableRel langCountGE := fun a b => Nat.decLe _ _

instance : IsTotal (String × Nat) langCountGE :=
  ⟨fun a b => (le_total b.2 a.2).imp (fun h => h) (fun h => h)⟩

instance : IsTrans (String × Nat) langCountGE :=
  ⟨fun _ _ _ h1 h2 => le_trans h2 h1⟩

/-- The `recentActivity` record of an `OrganizationStats`. -/
structure RecentActivity where
  commits : List Commit
  pullRequests : List PullRequest
deriving DecidableEq

/-- The `OrganizationStats` record returned by `computeOrganizationStats`. -/
structure OrganizationStats where
  organization : String
  totalRepositories : Nat
  totalMembers : Nat
  totalCommits : Nat
  totalPullRequests : Nat
  totalLinesOfCode : Nat
  topLanguages : List (String × Nat)
  repositories : List Repository
  members : List User
  userStats : List UserStatsEntry
  codeStats : List CodeStats
  recentActivity : RecentActivity
deriving DecidableEq

/-- Embedding of `computeOrganizationStats` from the source.  The JS array sorts (a stable
sort under a total comparator) are modelled by `List.insertionSort`. -/
def computeOrganizationStats (orgLogin : String) (repositories : List Repository)
    (members : List User) (userStats : List UserStatsEntry)
    (codeStats : List CodeStats) (recentCommits : List Commit)
    (recentPullRequests : List PullRequest) : OrganizationStats :=
  let totalLinesOfCode := codeStats.foldl (fun total stats => total + stats.totalLines) 0
  let langTotals : List (String × Nat) :=
    codeStats.foldl
      (fun m stats =>
        stats.languageBreakdown.foldl
          (fun m e => mapSet m e.1 ((mapGet m e.1).getD 0 + e.2.lines)) m)
      []
  let topLanguages := (List.insertionSort langCountGE langTotals).take 10
  let sortedCommits := (List.insertionSort commitDateGE recentCommits).take 50
  let sortedPullRequests := (List.insertionSort prDateGE recentPullRequests).take 50
  { organization := orgLogin
    totalRepositories := repositories.length
    totalMembers := members.length
    totalCommits := userStats.foldl (fun total user => total + user.commits) 0
    totalPullRequests := userStats.foldl (fun total user => total + user.pullRequests) 0
    totalLinesOfCode := totalLinesOfCode
    topLanguages := topLanguages
    repositories := repositories
    members := members
    userStats := userStats
    codeStats := codeStats
    recentActivity := { commits := sortedCommits, pullRequests := sortedPullRequests } }

/-- The organization metadata read by `performFullAnalysis`. -/
structure OrgInfo where
  login : String
deriving DecidableEq

/-- The remote outcomes that one run of `performFullAnalysis` observes: the
three critical fetches as `Except` (an error models a thrown request error),
and the per-repository non-critical data, which the source already reduces to
plain values (their fetch errors are caught and replaced by empty defaults). -/
structure AnalysisEnv where
  orgResult : Except String OrgInfo
  reposResult : Except String (List Repository)
  membersResult : Except String (List User)
  filesOf : Repository → List FileInput
  commitsOf : Repository → List Commit
  pullRequestsOf : Repository → List PullRequest

/-- Observable steps of one run of `performFullAnalysis`, recorded so that
the error path can be seen to stop before repository processing. -/
inductive AnalysisStep where
  | fetchOrg
  | fetchRepos
  | fetchMembers
  | analyzeRepo (name : String)
deriving DecidableEq

/-- Embedding of `performFullAnalysis` from the source: the three critical fetches in
order, then the per-repository loop (code analysis, commits capped to the
latest 10 per repository, pull requests capped to the latest 5), then the
user and organization aggregation.  A failing critical fetch short-circuits
the run with its error. -/
def performFullAnalysis (env : AnalysisEnv) :
    List AnalysisStep × Except String OrganizationStats :=
  match env.orgResult with
  | .error e => ([.fetchOrg], .error e)
  | .ok org =>
    match env.reposResult with
    | .error e => ([.fetchOrg, .fetchRepos], .error e)
    | .ok repositories =>
      match env.membersResult with
      | .error e => ([.fetchOrg, .fetchRepos, .fetchMembers], .error e)
      | .ok members =>
        let codeStats := repositories.map fun repo =>
          analyzeRepositoryCode repo (env.filesOf repo)
        let recentCommits := repositories.foldl
          (fun acc repo => acc ++ (env.commitsOf repo).take 10) []
        let recentPullRequests := repositories.foldl
          (fun acc repo => acc ++ (env.pullRequestsOf repo).take 5) []
        let userStats := computeUserStats members recentCommits recentPullRequests
        ([.fetchOrg, .fetchRepos, .fetchMembers] ++
           repositories.map (fun r => .analyzeRepo r.name),
         .ok (computeOrganizationStats org.login repositories members userStats
                codeStats recentCommits recentPullRequests))

lemma classifyLine_sum (patterns : CommentPatterns) (acc : Nat × Nat × Nat)
    (line : List Char) :
    (classifyLine patterns acc line).1 + (classifyLine patterns acc line).2.1 +
      (classifyLine patterns acc line).2.2 = acc.1 + acc.2.1 + acc.2.2 + 1 := by
  simp only [classifyLine]
  split_ifs <;> simp <;> omega

lemma foldl_classifyLine_sum (patterns : CommentPatterns) :
    ∀ (lines : List (List Char)) (acc : Nat × Nat × Nat),
      (lines.foldl (classifyLine patterns) acc).1 +
        (lines.foldl (classifyLine patterns) acc).2.1 +
        (lines.foldl (classifyLine patterns) acc).2.2 =
      acc.1 + acc.2.1 + acc.2.2 + lines.length := by
  intro lines
  induction lines with
  | nil => intro acc; simp
  | cons l ls ih =>
    intro acc
    simp only [List.foldl_cons, List.length_cons]
    rw [ih]
    have h := classifyLine_sum patterns acc l
    omega

lemma analyzeTextContent_sum (content filePath : List Char) :
    (analyzeTextContent content filePath).totalLines =
      (analyzeTextContent content filePath).codeLines +
        (analyzeTextContent content filePath).commentLines +
        (analyzeTextContent content filePath).blankLines := by
  simp only [analyzeTextContent]
  have h := foldl_classifyLine_sum
    (getCommentPatterns (getLanguageFromFile filePath)) (jsSplit '\n' content) (0, 0, 0)
  simp only [Prod.fst, Prod.snd] at h
  omega

lemma analyzeFileContent_sum (file : FileInput) :
    (analyzeFileContent file).totalLines =
      (analyzeFileContent file).codeLines + (analyzeFileContent file).commentLines +
        (analyzeFileContent file).blankLines := by
  simp only [analyzeFileContent]
  split_ifs
  · rfl
  · cases file.fetch with
    | none => rfl
    | some content => exact analyzeTextContent_sum content file.entry.path

lemma accumulateFile_sum (stats : CodeStats) (file : FileInput)
    (h : stats.totalLines = stats.codeLines + stats.commentLines + stats.blankLines) :
    (accumulateFile stats file).totalLines =
      (accumulateFile stats file).codeLines + (accumulateFile stats file).commentLines +
        (accumulateFile stats file).blankLines := by
  simp only [accumulateFile]
  have hf := analyzeFileContent_sum file
  omega

lemma foldl_accumulateFile_sum :
    ∀ (files : List FileInput) (stats : CodeStats),
      stats.totalLines = stats.codeLines + stats.commentLines + stats.blankLines →
      (files.foldl accumulateFile stats).totalLines =
        (files.foldl accumulateFile stats).codeLines +
          (files.foldl accumulateFile stats).commentLines +
          (files.foldl accumulateFile stats).blankLines := by
  intro files
  induction files with
  | nil => intro stats h; simpa using h
  | cons f fs ih =>
    intro stats h
    simp only [List.foldl_cons]
    exact ih _ (accumulateFile_sum stats f h)

/-- C1: every `analyzeTextContent` result satisfies
`totalLines = codeLines + commentLines + blankLines` (each line is classified
into exactly one bucket), and the repository-level `CodeStats` accumulated by
`analyzeRepositoryCode` satisfies the same identity. -/
theorem C1_total_is_partition :
    (∀ content filePath : List Char,
        (analyzeTextContent content filePath).totalLines =
          (analyzeTextContent content filePath).codeLines +
            (analyzeTextContent content filePath).commentLines +
            (analyzeTextContent content filePath).blankLines) ∧
    (∀ (repo : Repository) (files : List FileInput),
        (analyzeRepositoryCode repo files).totalLines =
          (analyzeRepositoryCode repo files).codeLines +
            (analyzeRepositoryCode repo files).commentLines +
            (analyzeRepositoryCode repo files).blankLines) := by
  refine ⟨analyzeTextContent_sum, ?_⟩
  intro repo files
  simp only [analyzeRepositoryCode]
  exact foldl_accumulateFile_sum files _ rfl

lemma jsSplit_ne_nil (sep : Char) : ∀ l : List Char, jsSplit sep l ≠ [] := by
  intro l
  cases l with
  | nil => simp [jsSplit]
  | cons c rest =>
    simp only [jsSplit]
    split_ifs
    · simp
    · cases h : jsSplit sep rest <;> simp

lemma jsSplit_length (sep : Char) :
    ∀ l : List Char, (jsSplit sep l).length = l.count sep + 1 := by
  intro l
  induction l with
  | nil => simp [jsSplit]
  | cons c rest ih =>
    simp only [jsSplit]
    split_ifs with hc
    · subst hc
      simp [List.count_cons, ih]
    · cases h : jsSplit sep rest with
      | nil => exact absurd h (jsSplit_ne_nil sep rest)
      | cons x xs =>
        have := ih
        rw [h] at this
        simp only [List.length_cons] at this ⊢
        rw [List.count_cons]
        simp [hc, this]

/-- C10: `analyzeTextContent` reports one more line than there are line-feed
characters in the content, so `totalLines ≥ 1` always; in particular the
empty content yields one blank line, never zero lines. -/
theorem C10_empty_file_is_one_blank_line :
    (∀ content filePath : List Char,
        (analyzeTextContent content filePath).totalLines = content.count '\n' + 1) ∧
    (∀ filePath : List Char,
        analyzeTextContent [] filePath =
          { totalLines := 1, codeLines := 0, commentLines := 0, blankLines := 1 }) := by
  constructor
  · intro content filePath
    simp only [analyzeTextContent]
    exact jsSplit_length '\n' content
  · intro filePath
    simp [analyzeTextContent, jsSplit, classifyLine, jsTrim]

/-- C2 counterexample: for the content `"a\n// b\n\n"` and a JavaScript file
path, `analyzeTextContent` does not return (3, 1, 1, 1): the split on
line-feed yields a trailing empty segment, so there are 4 lines. -/
theorem C2_counterexample :
    getLanguageFromFile "src/app.js".toList = "JavaScript" ∧
    analyzeTextContent "a\n// b\n\n".toList "src/app.js".toList ≠
      { totalLines := 3, codeLines := 1, commentLines := 1, blankLines := 1 } := by
  constructor
  · decide
  · decide

/-- C2 amended: for the content `"a\n// b\n\n"` and a JavaScript file path,
`analyzeTextContent` returns totalLines = 4, codeLines = 1, commentLines = 1,
blankLines = 2 (the trailing line-feed contributes a second blank line). -/
theorem C2_amended_concrete_counts :
    analyzeTextContent "a\n// b\n\n".toList "src/app.js".toList =
      { totalLines := 4, codeLines := 1, commentLines := 1, blankLines := 2 } := by
  decide

/-- Sum of the per-language `lines` fields of a breakdown. -/
def linesSum (bd : List (String × LangEntry)) : Nat :=
  (bd.map fun e => e.2.lines).sum

lemma addToBreakdown_linesSum (bd : List (String × LangEntry)) (language : String)
    (fileTotal : Nat) :
    linesSum (addToBreakdown bd language fileTotal) = linesSum bd + fileTotal := by
  induction bd with
  | nil => simp [addToBreakdown, linesSum]
  | cons e rest ih =>
    obtain ⟨l, v⟩ := e
    simp only [addToBreakdown]
    split_ifs with h
    · simp only [linesSum, List.map_cons, List.sum_cons]
      omega
    · simp only [linesSum, List.map_cons, List.sum_cons] at ih ⊢
      omega

lemma foldl_accumulate_totalLines :
    ∀ (files : List FileInput) (stats : CodeStats),
      (files.foldl accumulateFile stats).totalLines =
        stats.totalLines + (files.map fun f => (analyzeFileContent f).totalLines).sum := by
  intro files
  induction files with
  | nil => intro stats; simp
  | cons f fs ih =>
    intro stats
    simp only [List.foldl_cons, List.map_cons, List.sum_cons]
    rw [ih]
    simp only [accumulateFile]
    omega

lemma foldl_accumulate_linesSum :
    ∀ (files : List FileInput) (stats : CodeStats),
      linesSum (files.foldl accumulateFile stats).languageBreakdown =
        linesSum stats.languageBreakdown +
          (files.map fun f => (analyzeFileContent f).totalLines).sum := by
  intro files
  induction files with
  | nil => intro stats; simp
  | cons f fs ih =>
    intro stats
    simp only [List.foldl_cons, List.map_cons, List.sum_cons]
    rw [ih]
    simp only [accumulateFile]
    rw [addToBreakdown_linesSum]
    omega

lemma addToBreakdown_percZero (bd : List (String × LangEntry)) (language : String)
    (fileTotal : Nat) (h : ∀ e ∈ bd, e.2.percentage = 0) :
    ∀ e ∈ addToBreakdown bd language fileTotal, e.2.percentage = 0 := by
  induction bd with
  | nil => simp [addToBreakdown]
  | cons hd rest ih =>
    obtain ⟨l, v⟩ := hd
    simp only [addToBreakdown]
    split_ifs with hl
    · intro e he
      rcases List.mem_cons.mp he with h1 | h2
      · subst h1
        exact h (l, v) (List.mem_cons_self _ _)
      · exact h e (List.mem_cons_of_mem _ h2)
    · intro e he
      rcases List.mem_cons.mp he with h1 | h2
      · subst h1
        exact h (l, v) (List.mem_cons_self _ _)
      · exact ih (fun e' he' => h e' (List.mem_cons_of_mem _ he')) e h2

lemma foldl_accumulate_percZero :
    ∀ (files : List FileInput) (stats : CodeStats),
      (∀ e ∈ stats.languageBreakdown, e.2.percentage = 0) →
      ∀ e ∈ (files.foldl accumulateFile stats).languageBreakdown, e.2.percentage = 0 := by
  intro files
  induction files with
  | nil => intro stats h; simpa using h
  | cons f fs ih =>
    intro stats h
    simp only [List.foldl_cons]
    exact ih _ (addToBreakdown_percZero _ _ _ h)

lemma recomputePercentages_zero (bd : List (String × LangEntry)) :
    recomputePercentages 0 bd = bd := by
  simp [recomputePercentages]

lemma percSum_recompute (total : Nat) (hT : 0 < total) (bd : List (String × LangEntry)) :
    ((recomputePercentages total bd).map fun e => e.2.percentage).sum =
      (linesSum bd : ℚ) / (total : ℚ) * 100 := by
  induction bd with
  | nil => simp [recomputePercentages, linesSum]
  | cons e rest ih =>
    simp only [recomputePercentages, List.map_cons, List.sum_cons, linesSum] at ih ⊢
    rw [if_pos hT]
    rw [ih]
    push_cast
    ring

/-- C3: for every `CodeStats` produced by `analyzeRepositoryCode` with a
positive line total, the per-language percentages sum to exactly 100 over
rational arithmetic; with a zero line total every percentage is exactly 0. -/
theorem C3_percentages_sum_to_100 (repo : Repository) (files : List FileInput) :
    (0 < (analyzeRepositoryCode repo files).totalLines →
      ((analyzeRepositoryCode repo files).languageBreakdown.map
          fun e => e.2.percentage).sum = 100) ∧
    ((analyzeRepositoryCode repo files).totalLines = 0 →
      ∀ e ∈ (analyzeRepositoryCode repo files).languageBreakdown,
        e.2.percentage = 0) := by
  have hTotal := foldl_accumulate_totalLines files
  have hLines := foldl_accumulate_linesSum files
  constructor
  · intro h
    simp only [analyzeRepositoryCode] at h ⊢
    rw [percSum_recompute _ h]
    have hsum :
        linesSum (List.foldl accumulateFile
            { repository := repo.name, branch := repo.default_branch, totalLines := 0,
              codeLines := 0, commentLines := 0, blankLines := 0,
              fileCount := files.length, languageBreakdown := [] } files).languageBreakdown =
          (List.foldl accumulateFile
            { repository := repo.name, branch := repo.default_branch, totalLines := 0,
              codeLines := 0, commentLines := 0, blankLines := 0,
              fileCount := files.length, languageBreakdown := [] } files).totalLines := by
      rw [hLines, hTotal]
      simp [linesSum]
    rw [hsum]
    have hne : ((List.foldl accumulateFile
        { repository := repo.name, branch := repo.default_branch, totalLines := 0,
          codeLines := 0, commentLines := 0, blankLines := 0,
          fileCount := files.length, languageBreakdown := [] } files).totalLines : ℚ) ≠ 0 := by
      exact_mod_cast Nat.pos_iff_ne_zero.mp h
    field_simp
  · intro h
    simp only [analyzeRepositoryCode] at h ⊢
    rw [h, recomputePercentages_zero]
    exact foldl_accumulate_percZero files _ (by simp)

/-- Repository used by the C3 witness. -/
def c3Repo : Repository := { name := "r", default_branch := "main" }

/-- File used by the C3 witness: a small JavaScript file with one code line. -/
def c3File : FileInput :=
  { entry := { path := "a.js".toList, type := "blob", size := 10 }
    fetch := some "x".toList }

theorem C3_witness :
    (0 < (analyzeRepositoryCode c3Repo [c3File]).totalLines ∧
      ((analyzeRepositoryCode c3Repo [c3File]).languageBreakdown.map
          fun e => e.2.percentage).sum = 100) ∧
    ((analyzeRepositoryCode c3Repo []).totalLines = 0 ∧
      ∀ e ∈ (analyzeRepositoryCode c3Repo []).languageBreakdown, e.2.percentage = 0) :=
  ⟨⟨by decide, (C3_percentages_sum_to_100 c3Repo [c3File]).1 (by decide)⟩,
   ⟨rfl, (C3_percentages_sum_to_100 c3Repo []).2 rfl⟩⟩


/-- Lines recorded for one language in a breakdown (0 when absent). -/
def breakdownLines (bd : List (String × LangEntry)) (lang : String) : Nat :=
  ((bd.find? fun e => e.1 == lang).map fun e => e.2.lines).getD 0

/-- Files recorded for one language in a breakdown (0 when absent). -/
def breakdownFiles (bd : List (String × LangEntry)) (lang : String) : Nat :=
  ((bd.find? fun e => e.1 == lang).map fun e => e.2.files).getD 0

/-- Percentage recorded for one language in a breakdown (0 when absent). -/
def breakdownPercentage (bd : List (String × LangEntry)) (lang : String) : ℚ :=
  ((bd.find? fun e => e.1 == lang).map fun e => e.2.percentage).getD 0

lemma breakdownLines_cons (k : String) (v : LangEntry) (rest : List (String × LangEntry))
    (l : String) :
    breakdownLines ((k, v) :: rest) l = if k = l then v.lines else breakdownLines rest l := by
  by_cases h : k = l
  · simp only [breakdownLines]
    rw [List.find?_cons_of_pos _ (by simpa using h)]
    simp [h]
  · simp only [breakdownLines]
    rw [List.find?_cons_of_neg _ (by simpa using h)]
    simp [h]

lemma breakdownFiles_cons (k : String) (v : LangEntry) (rest : List (String × LangEntry))
    (l : String) :
    breakdownFiles ((k, v) :: rest) l = if k = l then v.files else breakdownFiles rest l := by
  by_cases h : k = l
  · simp only [breakdownFiles]
    rw [List.find?_cons_of_pos _ (by simpa using h)]
    simp [h]
  · simp only [breakdownFiles]
    rw [List.find?_cons_of_neg _ (by simpa using h)]
    simp [h]

lemma breakdownPercentage_cons (k : String) (v : LangEntry)
    (rest : List (String × LangEntry)) (l : String) :
    breakdownPercentage ((k, v) :: rest) l =
      if k = l then v.percentage else breakdownPercentage rest l := by
  by_cases h : k = l
  · simp only [breakdownPercentage]
    rw [List.find?_cons_of_pos _ (by simpa using h)]
    simp [h]
  · simp only [breakdownPercentage]
    rw [List.find?_cons_of_neg _ (by simpa using h)]
    simp [h]

lemma addToBreakdown_lines_lookup (bd : List (String × LangEntry)) (language : String)
    (fileTotal : Nat) (l : String) :
    breakdownLines (addToBreakdown bd language fileTotal) l =
      breakdownLines bd l + (if l = language then fileTotal else 0) := by
  induction bd with
  | nil =>
    simp only [addToBreakdown, breakdownLines_cons]
    by_cases h : language = l
    · simp [breakdownLines, h]
    · have h' : ¬l = language := fun hh => h hh.symm
      simp [breakdownLines, h, h']
  | cons hd rest ih =>
    obtain ⟨k, v⟩ := hd
    by_cases hk : k = language
    · simp only [addToBreakdown, if_pos hk, breakdownLines_cons]
      by_cases hl : k = l
      · have hll : l = language := by rw [← hl, hk]
        simp [hl, hll]
      · have hll : ¬l = language := by
          intro hh
          exact hl (by rw [hk, ← hh])
        simp [hl, hll]
    · simp only [addToBreakdown, if_neg hk, breakdownLines_cons]
      by_cases hl : k = l
      · have hll : ¬l = language := by
          intro hh
          exact hk (hl.trans hh)
        simp [hl, hll]
      · simp [hl, ih]

lemma addToBreakdown_files_lookup (bd : List (String × LangEntry)) (language : String)
    (fileTotal : Nat) (l : String) :
    breakdownFiles (addToBreakdown bd language fileTotal) l =
      breakdownFiles bd l + (if l = language then 1 else 0) := by
  induction bd with
  | nil =>
    simp only [addToBreakdown, breakdownFiles_cons]
    by_cases h : language = l
    · simp [breakdownFiles, h]
    · have h' : ¬l = language := fun hh => h hh.symm
      simp [breakdownFiles, h, h']
  | cons hd rest ih =>
    obtain ⟨k, v⟩ := hd
    by_cases hk : k = language
    · simp only [addToBreakdown, if_pos hk, breakdownFiles_cons]
      by_cases hl : k = l
      · have hll : l = language := by rw [← hl, hk]
        simp [hl, hll]
      · have hll : ¬l = language := by
          intro hh
          exact hl (by rw [hk, ← hh])
        simp [hl, hll]
    · simp only [addToBreakdown, if_neg hk, breakdownFiles_cons]
      by_cases hl : k = l
      · have hll : ¬l = language := by
          intro hh
          exact hk (hl.trans hh)
        simp [hl, hll]
      · simp [hl, ih]

lemma recomputePercentages_of_not_pos (total : Nat) (hT : ¬0 < total)
    (bd : List (String × LangEntry)) : recomputePercentages total bd = bd := by
  simp only [recomputePercentages, gt_iff_lt, if_neg hT]
  exact List.map_id bd

lemma breakdownPercentage_recompute (total : Nat) (bd : List (String × LangEntry))
    (l : String) :
    breakdownPercentage (recomputePercentages total bd) l =
      if 0 < total then (breakdownLines bd l : ℚ) / (total : ℚ) * 100
      else breakdownPercentage bd l := by
  by_cases hT : 0 < total
  · rw [if_pos hT]
    induction bd with
    | nil => simp [recomputePercentages, breakdownPercentage, breakdownLines]
    | cons hd rest ih =>
      obtain ⟨k, v⟩ := hd
      simp only [recomputePercentages, List.map_cons, gt_iff_lt, if_pos hT] at ih ⊢
      rw [breakdownPercentage_cons, breakdownLines_cons]
      by_cases hl : k = l
      · simp [hl]
      · simp only [if_neg hl]
        exact ih
  · rw [if_neg hT, recomputePercentages_of_not_pos total hT]

lemma breakdownPercentage_of_all_zero (bd : List (String × LangEntry))
    (h : ∀ e ∈ bd, e.2.percentage = 0) (l : String) :
    breakdownPercentage bd l = 0 := by
  simp only [breakdownPercentage]
  cases hf : bd.find? fun e => e.1 == l with
  | none => rfl
  | some e =>
    have he : e ∈ bd := List.mem_of_find?_eq_some hf
    simp [h e he]

lemma foldl_accumulate_codeLines :
    ∀ (files : List FileInput) (stats : CodeStats),
      (files.foldl accumulateFile stats).codeLines =
        stats.codeLines + (files.map fun f => (analyzeFileContent f).codeLines).sum := by
  intro files
  induction files with
  | nil => intro stats; simp
  | cons f fs ih =>
    intro stats
    simp only [List.foldl_cons, List.map_cons, List.sum_cons]
    rw [ih]
    simp only [accumulateFile]
    omega

lemma foldl_accumulate_commentLines :
    ∀ (files : List FileInput) (stats : CodeStats),
      (files.foldl accumulateFile stats).commentLines =
        stats.commentLines + (files.map fun f => (analyzeFileContent f).commentLines).sum := by
  intro files
  induction files with
  | nil => intro stats; simp
  | cons f fs ih =>
    intro stats
    simp only [List.foldl_cons, List.map_cons, List.sum_cons]
    rw [ih]
    simp only [accumulateFile]
    omega

lemma foldl_accumulate_blankLines :
    ∀ (files : List FileInput) (stats : CodeStats),
      (files.foldl accumulateFile stats).blankLines =
        stats.blankLines + (files.map fun f => (analyzeFileContent f).blankLines).sum := by
  intro files
  induction files with
  | nil => intro stats; simp
  | cons f fs ih =>
    intro stats
    simp only [List.foldl_cons, List.map_cons, List.sum_cons]
    rw [ih]
    simp only [accumulateFile]
    omega

lemma foldl_accumulate_fileCount :
    ∀ (files : List FileInput) (stats : CodeStats),
      (files.foldl accumulateFile stats).fileCount = stats.fileCount := by
  intro files
  induction files with
  | nil => intro stats; rfl
  | cons f fs ih =>
    intro stats
    simp only [List.foldl_cons]
    rw [ih]
    rfl

lemma foldl_accumulate_lines_lookup :
    ∀ (files : List FileInput) (stats : CodeStats) (l : String),
      breakdownLines (files.foldl accumulateFile stats).languageBreakdown l =
        breakdownLines stats.languageBreakdown l +
          (files.map fun f =>
            if l = getLanguageFromFile f.entry.path then (analyzeFileContent f).totalLines
            else 0).sum := by
  intro files
  induction files with
  | nil => intro stats l; simp
  | cons f fs ih =>
    intro stats l
    simp only [List.foldl_cons, List.map_cons, List.sum_cons]
    rw [ih]
    simp only [accumulateFile]
    rw [addToBreakdown_lines_lookup]
    omega

lemma foldl_accumulate_files_lookup :
    ∀ (files : List FileInput) (stats : CodeStats) (l : String),
      breakdownFiles (files.foldl accumulateFile stats).languageBreakdown l =
        breakdownFiles stats.languageBreakdown l +
          (files.map fun f =>
            if l = getLanguageFromFile f.entry.path then 1 else 0).sum := by
  intro files
  induction files with
  | nil => intro stats l; simp
  | cons f fs ih =>
    intro stats l
    simp only [List.foldl_cons, List.map_cons, List.sum_cons]
    rw [ih]
    simp only [accumulateFile]
    rw [addToBreakdown_files_lookup]
    omega

lemma breakdownLines_nil (l : String) : breakdownLines [] l = 0 := rfl

lemma breakdownFiles_nil (l : String) : breakdownFiles [] l = 0 := rfl

lemma breakdownLines_recompute (total : Nat) (bd : List (String × LangEntry)) (l : String) :
    breakdownLines (recomputePercentages total bd) l = breakdownLines bd l := by
  induction bd with
  | nil => simp [recomputePercentages]
  | cons hd rest ih =>
    obtain ⟨k, v⟩ := hd
    simp only [recomputePercentages, List.map_cons] at ih ⊢
    split_ifs with hT
    · rw [breakdownLines_cons, breakdownLines_cons]
      by_cases hl : k = l
      · simp [hl]
      · simp only [if_neg hl]
        simpa [hT] using ih
    · simp

lemma breakdownFiles_recompute (total : Nat) (bd : List (String × LangEntry)) (l : String) :
    breakdownFiles (recomputePercentages total bd) l = breakdownFiles bd l := by
  induction bd with
  | nil => simp [recomputePercentages]
  | cons hd rest ih =>
    obtain ⟨k, v⟩ := hd
    simp only [recomputePercentages, List.map_cons] at ih ⊢
    split_ifs with hT
    · rw [breakdownFiles_cons, breakdownFiles_cons]
      by_cases hl : k = l
      · simp [hl]
      · simp only [if_neg hl]
        simpa [hT] using ih
    · simp

lemma analyzeRepositoryCode_totalLines (repo : Repository) (files : List FileInput) :
    (analyzeRepositoryCode repo files).totalLines =
      (files.map fun f => (analyzeFileContent f).totalLines).sum := by
  simp only [analyzeRepositoryCode]
  rw [foldl_accumulate_totalLines]
  simp

lemma analyzeRepositoryCode_codeLines (repo : Repository) (files : List FileInput) :
    (analyzeRepositoryCode repo files).codeLines =
      (files.map fun f => (analyzeFileContent f).codeLines).sum := by
  simp only [analyzeRepositoryCode]
  rw [foldl_accumulate_codeLines]
  simp

lemma analyzeRepositoryCode_commentLines (repo : Repository) (files : List FileInput) :
    (analyzeRepositoryCode repo files).commentLines =
      (files.map fun f => (analyzeFileContent f).commentLines).sum := by
  simp only [analyzeRepositoryCode]
  rw [foldl_accumulate_commentLines]
  simp

lemma analyzeRepositoryCode_blankLines (repo : Repository) (files : List FileInput) :
    (analyzeRepositoryCode repo files).blankLines =
      (files.map fun f => (analyzeFileContent f).blankLines).sum := by
  simp only [analyzeRepositoryCode]
  rw [foldl_accumulate_blankLines]
  simp

lemma analyzeRepositoryCode_fileCount (repo : Repository) (files : List FileInput) :
    (analyzeRepositoryCode repo files).fileCount = files.length := by
  simp only [analyzeRepositoryCode]
  rw [foldl_accumulate_fileCount]

lemma analyzeRepositoryCode_breakdownLines (repo : Repository) (files : List FileInput)
    (lang : String) :
    breakdownLines (analyzeRepositoryCode repo files).languageBreakdown lang =
      (files.map fun f =>
        if lang = getLanguageFromFile f.entry.path then (analyzeFileContent f).totalLines
        else 0).sum := by
  simp only [analyzeRepositoryCode]
  rw [breakdownLines_recompute, foldl_accumulate_lines_lookup]
  simp [breakdownLines_nil]

lemma analyzeRepositoryCode_breakdownFiles (repo : Repository) (files : List FileInput)
    (lang : String) :
    breakdownFiles (analyzeRepositoryCode repo files).languageBreakdown lang =
      (files.map fun f =>
        if lang = getLanguageFromFile f.entry.path then 1 else 0).sum := by
  simp only [analyzeRepositoryCode]
  rw [breakdownFiles_recompute, foldl_accumulate_files_lookup]
  simp [breakdownFiles_nil]

lemma analyzeRepositoryCode_breakdownPercentage (repo : Repository)
    (files : List FileInput) (lang : String) :
    breakdownPercentage (analyzeRepositoryCode repo files).languageBreakdown lang =
      if 0 < (files.map fun f => (analyzeFileContent f).totalLines).sum then
        (((files.map fun f =>
            if lang = getLanguageFromFile f.entry.path then (analyzeFileContent f).totalLines
            else 0).sum : Nat) : ℚ) /
          (((files.map fun f => (analyzeFileContent f).totalLines).sum : Nat) : ℚ) * 100
      else 0 := by
  have hraw : ∀ e ∈ (List.foldl accumulateFile
      { repository := repo.name, branch := repo.default_branch, totalLines := 0,
        codeLines := 0, commentLines := 0, blankLines := 0,
        fileCount := files.length, languageBreakdown := [] } files).languageBreakdown,
      e.2.percentage = 0 :=
    foldl_accumulate_percZero files _ (by simp)
  simp only [analyzeRepositoryCode]
  rw [breakdownPercentage_recompute, foldl_accumulate_lines_lookup,
    foldl_accumulate_totalLines]
  simp only [breakdownLines_nil, Nat.zero_add]
  split_ifs with hT
  · rfl
  · exact breakdownPercentage_of_all_zero _ hraw lang

/-- Repository used by the C4 counterexample and witness. -/
def c4Repo : Repository := { name := "r", default_branch := "main" }

/-- Oversized file used by the C4 counterexample and witness: 100001 bytes,
content with two code lines. -/
def c4Big : FileInput :=
  { entry := { path := "big.js".toList, type := "blob", size := 100001 }
    fetch := some "x\ny".toList }

/-- Small JavaScript file used by the C4 witness. -/
def c4Small : FileInput :=
  { entry := { path := "a.js".toList, type := "blob", size := 10 }
    fetch := some "x".toList }

/-- C4 counterexample: adding a file larger than 100000 bytes to the selected
list does not leave the `CodeStats` record equal — the file still counts
toward `fileCount` and its language's `files` count. -/
theorem C4_counterexample :
    c4Big.entry.size > 100000 ∧
    analyzeRepositoryCode c4Repo [c4Big] ≠ analyzeRepositoryCode c4Repo [] := by
  constructor
  · decide
  · decide

/-- C4 amended: a selected file whose size exceeds 100000 bytes contributes
zero to every line count and to every language's line total and percentage,
regardless of its content and position in the list; but it still counts
toward `fileCount` and toward its language's `files` count (creating a
zero-line entry when the language was absent). -/
theorem C4_amended_oversized_file (repo : Repository) (files₁ files₂ : List FileInput)
    (f : FileInput) (hbig : f.entry.size > 100000) :
    (analyzeRepositoryCode repo (files₁ ++ f :: files₂)).totalLines =
        (analyzeRepositoryCode repo (files₁ ++ files₂)).totalLines ∧
    (analyzeRepositoryCode repo (files₁ ++ f :: files₂)).codeLines =
        (analyzeRepositoryCode repo (files₁ ++ files₂)).codeLines ∧
    (analyzeRepositoryCode repo (files₁ ++ f :: files₂)).commentLines =
        (analyzeRepositoryCode repo (files₁ ++ files₂)).commentLines ∧
    (analyzeRepositoryCode repo (files₁ ++ f :: files₂)).blankLines =
        (analyzeRepositoryCode repo (files₁ ++ files₂)).blankLines ∧
    (analyzeRepositoryCode repo (files₁ ++ f :: files₂)).fileCount =
        (analyzeRepositoryCode repo (files₁ ++ files₂)).fileCount + 1 ∧
    (∀ lang,
      breakdownLines (analyzeRepositoryCode repo (files₁ ++ f :: files₂)).languageBreakdown lang =
        breakdownLines (analyzeRepositoryCode repo (files₁ ++ files₂)).languageBreakdown lang) ∧
    (∀ lang,
      breakdownFiles (analyzeRepositoryCode repo (files₁ ++ f :: files₂)).languageBreakdown lang =
        breakdownFiles (analyzeRepositoryCode repo (files₁ ++ files₂)).languageBreakdown lang +
          (if lang = getLanguageFromFile f.entry.path then 1 else 0)) ∧
    (∀ lang,
      breakdownPercentage
          (analyzeRepositoryCode repo (files₁ ++ f :: files₂)).languageBreakdown lang =
        breakdownPercentage
          (analyzeRepositoryCode repo (files₁ ++ files₂)).languageBreakdown lang) := by
  have hf0 : analyzeFileContent f = ⟨0, 0, 0, 0⟩ := by
    simp only [analyzeFileContent, if_pos hbig]
  refine ⟨?_, ?_, ?_, ?_, ?_, ?_, ?_, ?_⟩
  · rw [analyzeRepositoryCode_totalLines, analyzeRepositoryCode_totalLines]
    simp [hf0, List.map_append, List.sum_append]
  · rw [analyzeRepositoryCode_codeLines, analyzeRepositoryCode_codeLines]
    simp [hf0, List.map_append, List.sum_append]
  · rw [analyzeRepositoryCode_commentLines, analyzeRepositoryCode_commentLines]
    simp [hf0, List.map_append, List.sum_append]
  · rw [analyzeRepositoryCode_blankLines, analyzeRepositoryCode_blankLines]
    simp [hf0, List.map_append, List.sum_append]
  · rw [analyzeRepositoryCode_fileCount, analyzeRepositoryCode_fileCount]
    simp only [List.length_append, List.length_cons]
    omega
  · intro lang
    rw [analyzeRepositoryCode_breakdownLines, analyzeRepositoryCode_breakdownLines]
    simp [hf0, List.map_append, List.sum_append]
  · intro lang
    rw [analyzeRepositoryCode_breakdownFiles, analyzeRepositoryCode_breakdownFiles]
    simp only [hf0, List.map_append, List.map_cons, List.sum_append, List.sum_cons]
    omega
  · intro lang
    rw [analyzeRepositoryCode_breakdownPercentage, analyzeRepositoryCode_breakdownPercentage]
    simp [hf0, List.map_append, List.sum_append]

theorem C4_witness :
    c4Big.entry.size > 100000 ∧
    (analyzeRepositoryCode c4Repo [c4Small, c4Big]).totalLines =
      (analyzeRepositoryCode c4Repo [c4Small]).totalLines ∧
    (analyzeRepositoryCode c4Repo [c4Small, c4Big]).fileCount =
      (analyzeRepositoryCode c4Repo [c4Small]).fileCount + 1 ∧
    breakdownLines (analyzeRepositoryCode c4Repo [c4Small, c4Big]).languageBreakdown
        "JavaScript" =
      breakdownLines (analyzeRepositoryCode c4Repo [c4Small]).languageBreakdown
        "JavaScript" ∧
    breakdownPercentage (analyzeRepositoryCode c4Repo [c4Small, c4Big]).languageBreakdown
        "JavaScript" =
      breakdownPercentage (analyzeRepositoryCode c4Repo [c4Small]).languageBreakdown
        "JavaScript" := by
  have h := C4_amended_oversized_file c4Repo [c4Small] [] c4Big (by decide)
  exact ⟨by decide, h.1, h.2.2.2.2.1, h.2.2.2.2.2.1 "JavaScript", h.2.2.2.2.2.2.2 "JavaScript"⟩

lemma getLastD_jsSplit (sep : Char) :
    ∀ p : List Char,
      (jsSplit sep p).getLastD [] =
        (p.reverse.takeWhile fun c => !(c == sep)).reverse := by
  intro p
  induction p with
  | nil => simp [jsSplit]
  | cons c rest ih =>
    by_cases hc : c = sep
    · subst hc
      simp only [jsSplit, eq_self_iff_true, if_true]
      rw [List.getLastD_cons, ih]
      simp only [List.reverse_cons]
      rw [List.takeWhile_append]
      split_ifs with h
      · have heq : rest.reverse.takeWhile (fun x => !(x == c)) = rest.reverse :=
          List.IsPrefix.eq_of_length ( List.takeWhile_prefix _) h
        rw [heq]
        simp [List.takeWhile_cons]
      · rfl
    · simp only [jsSplit, if_neg hc]
      cases hsp : jsSplit sep rest with
      | nil => exact absurd hsp (jsSplit_ne_nil sep rest)
      | cons h t =>
        rw [hsp] at ih
        cases t with
        | nil =>
          have hlen := jsSplit_length sep rest
          rw [hsp] at hlen
          simp only [List.length_cons, List.length_nil] at hlen
          have hcount : rest.count sep = 0 := by omega
          have hmem : sep ∉ rest := List.count_eq_zero.mp hcount
          have hall : rest.reverse.takeWhile (fun x => !(x == sep)) = rest.reverse := by
            refine List.takeWhile_eq_self_iff.mpr ?_
            intro x hx
            have : x ∈ rest := List.mem_reverse.mp hx
            simp only [Bool.not_eq_eq_eq_not, Bool.not_true, beq_eq_false_iff_ne, ne_eq]
            intro hxs
            exact hmem (hxs ▸ this)
          have hh : h = rest := by
            have := ih
            simp only [List.getLastD_cons, List.getLastD_nil] at this
            rw [hall] at this
            simpa using this
          simp only [List.reverse_cons]
          rw [List.takeWhile_append, if_pos (by rw [hall])]
          have hbeqc : (c == sep) = false := by simp [hc]
          have hc1 : List.takeWhile (fun x => !(x == sep)) [c] = [c] := by
            simp [List.takeWhile_cons, hbeqc]
          rw [hc1]
          simp [hh, List.getLastD_cons, List.getLastD_nil]
        | cons t0 ts =>
          have hlen := jsSplit_length sep rest
          rw [hsp] at hlen
          simp only [List.length_cons] at hlen
          have hcount : 0 < rest.count sep := by omega
          have hmem : sep ∈ rest := by
            by_contra hn
            rw [List.count_eq_zero.mpr hn] at hcount
            exact absurd hcount (lt_irrefl 0)
          have hnotall :
              ¬(rest.reverse.takeWhile (fun x => !(x == sep))).length = rest.reverse.length := by
            intro hlen2
            have heq : rest.reverse.takeWhile (fun x => !(x == sep)) = rest.reverse :=
              List.IsPrefix.eq_of_length ( List.takeWhile_prefix _) hlen2
            have hall := List.takeWhile_eq_self_iff.mp heq
            have := hall sep (List.mem_reverse.mpr hmem)
            simp at this
          simp only [List.reverse_cons]
          rw [List.takeWhile_append, if_neg hnotall]
          simp only [List.getLastD_cons] at ih ⊢
          exact ih

/-- Modelled from the spec (amended wording for the file selector): the
extension used for filtering is a dot followed by the lowercased substring
after the final dot of the path or, when the path contains no dot, by the
lowercased whole path. -/
def specExtension (path : List Char) : List Char :=
  if ('.' : Char) ∈ path then
    '.' :: ((path.reverse.takeWhile fun c => !(c == '.')).reverse.map Char.toLower)
  else '.' :: path.map Char.toLower

/-- Modelled from the spec (amended wording): keep the blob entries whose
`specExtension` is in the allow-list, first 100 in tree order. -/
def specSelectFiles (tree : List TreeEntry) : List TreeEntry :=
  (tree.filter fun e =>
    e.type == "blob" && includeExtensions.contains (specExtension e.path)).take 100

lemma extOfPath_eq_specExtension (p : List Char) : extOfPath p = specExtension p := by
  simp only [extOfPath, specExtension, getLastD_jsSplit]
  by_cases h : ('.' : Char) ∈ p
  · rw [if_pos h]
  · rw [if_neg h]
    have hall : p.reverse.takeWhile (fun x => !(x == '.')) = p.reverse := by
      refine List.takeWhile_eq_self_iff.mpr ?_
      intro x hx
      have hxp : x ∈ p := List.mem_reverse.mp hx
      simp only [Bool.not_eq_eq_eq_not, Bool.not_true, beq_eq_false_iff_ne, ne_eq]
      intro hxx
      exact h (hxx ▸ hxp)
    rw [hall]
    simp

/-- Tree entry used by the C5 counterexample: a blob whose path has no dot. -/
def c5Entry : TreeEntry := { path := "js".toList, type := "blob", size := 10 }

/-- C5 counterexample: a blob entry whose path contains no dot at all is
selected by `getRepositoryFiles` when the whole lowercased path, with a dot
prepended, lands in the allow-list (path `js` yields extension `.js`) — the
claim that every extension-less entry is excluded is false. -/
theorem C5_counterexample :
    ('.' : Char) ∉ c5Entry.path ∧ c5Entry.type = "blob" ∧
    getRepositoryFiles [c5Entry] = [c5Entry] := by
  refine ⟨by decide, rfl, by decide⟩

/-- C5 amended: `getRepositoryFiles` returns the first at most 100 blob
entries whose extension — computed as a dot plus the lowercased substring
after the final dot or, for a dot-free path, the lowercased whole path — is
in the fixed allow-list; an extension-less path is excluded exactly when
this computed extension falls outside the list. -/
theorem C5_amended_selection (tree : List TreeEntry) :
    getRepositoryFiles tree = specSelectFiles tree ∧
    (getRepositoryFiles tree).length ≤ 100 := by
  constructor
  · simp only [getRepositoryFiles, specSelectFiles]
    have hpred :
        (fun item : TreeEntry =>
            item.type == "blob" && includeExtensions.contains (extOfPath item.path)) =
          fun e : TreeEntry =>
            e.type == "blob" && includeExtensions.contains (specExtension e.path) := by
      funext e
      rw [extOfPath_eq_specExtension]
    rw [hpred]
  · simp only [getRepositoryFiles, List.length_take]
    exact min_le_left _ _

lemma paginateRun_requests_perPage (server : Nat → Nat → List α) (transform : α → β) :
    ∀ (fuel page : Nat) (r : Nat × Nat),
      r ∈ (paginateRun server transform fuel page).1 → r.1 = 100 := by
  intro fuel
  induction fuel with
  | zero => intro page r hr; simp [paginateRun] at hr
  | succ f ih =>
    intro page r hr
    simp only [paginateRun] at hr
    split_ifs at hr with h
    · simp only [List.mem_cons] at hr
      rcases hr with hr | hr
      · rw [hr]
      · exact ih (page + 1) r hr
    · simp only [List.mem_singleton] at hr
      rw [hr]

lemma paginateRun_terminates (server : Nat → Nat → List α) (transform : α → β) :
    ∀ (k page fuel : Nat),
      (∀ n, page ≤ n → n < page + k → (server 100 n).length = 100) →
      (server 100 (page + k)).length ≠ 100 →
      k < fuel →
      paginateRun server transform fuel page =
        ((List.range' page (k + 1)).map fun p => (100, p),
         some (((List.range' page (k + 1)).map fun p => (server 100 p).map transform).flatten)) := by
  intro k
  induction k with
  | zero =>
    intro page fuel hfull hshort hfuel
    obtain ⟨f, rfl⟩ : ∃ f, fuel = f + 1 := ⟨fuel - 1, by omega⟩
    simp only [paginateRun]
    rw [if_neg (by simpa using hshort)]
    simp [List.range']
  | succ k ih =>
    intro page fuel hfull hshort hfuel
    obtain ⟨f, rfl⟩ : ∃ f, fuel = f + 1 := ⟨fuel - 1, by omega⟩
    simp only [paginateRun]
    rw [if_pos (hfull page (le_refl page) (by omega))]
    rw [ih (page + 1) f
      (fun n h1 h2 => hfull n (by omega) (by omega))
      (by
        have : page + 1 + k = page + (k + 1) := by omega
        rw [this]
        exact hshort)
      (by omega)]
    rw [List.range'_succ page (k + 1) 1]
    simp

lemma paginateRun_all_full (server : Nat → Nat → List α) (transform : α → β)
    (hfull : ∀ n, (server 100 n).length = 100) :
    ∀ (fuel page : Nat), (paginateRun server transform fuel page).2 = none := by
  intro fuel
  induction fuel with
  | zero => intro page; rfl
  | succ f ih =>
    intro page
    simp only [paginateRun]
    rw [if_pos (hfull page)]
    simp [ih (page + 1)]

/-- C6: both listing loops request a fixed page size of 100; they issue the
next page request exactly when the page returned has length 100 and stop on
the first page shorter than 100 (collecting pages 1..k in order); when every
page comes back with exactly 100 items the loop never terminates (no finite
fuel completes it). -/
theorem C6_pagination_loops (server : Nat → Nat → List Repository)
    (mserver : Nat → Nat → List User) (enrich : User → Option User) (fuel k : Nat) :
    (∀ r ∈ (getRepositories server fuel).1, r.1 = 100) ∧
    (∀ r ∈ (getOrganizationMembers mserver enrich fuel).1, r.1 = 100) ∧
    (1 ≤ k → (∀ n, 1 ≤ n → n < k → (server 100 n).length = 100) →
      (server 100 k).length < 100 → k ≤ fuel →
      getRepositories server fuel =
        ((List.range' 1 k).map fun p => (100, p),
         some (((List.range' 1 k).map fun p => server 100 p).flatten))) ∧
    (1 ≤ k → (∀ n, 1 ≤ n → n < k → (mserver 100 n).length = 100) →
      (mserver 100 k).length < 100 → k ≤ fuel →
      getOrganizationMembers mserver enrich fuel =
        ((List.range' 1 k).map fun p => (100, p),
         some (((List.range' 1 k).map fun p =>
           (mserver 100 p).map fun member => (enrich member).getD member).flatten))) ∧
    ((∀ n, (server 100 n).length = 100) → (getRepositories server fuel).2 = none) ∧
    ((∀ n, (mserver 100 n).length = 100) →
      (getOrganizationMembers mserver enrich fuel).2 = none) := by
  refine ⟨?_, ?_, ?_, ?_, ?_, ?_⟩
  · intro r hr
    exact paginateRun_requests_perPage server id fuel 1 r hr
  · intro r hr
    exact paginateRun_requests_perPage mserver _ fuel 1 r hr
  · intro hk hfull hshort hfuel
    obtain ⟨k', rfl⟩ : ∃ k', k = k' + 1 := ⟨k - 1, by omega⟩
    have h := paginateRun_terminates server id k' 1 fuel
      (fun n h1 h2 => hfull n h1 (by omega))
      (by
        have : 1 + k' = k' + 1 := by omega
        rw [this]
        exact Nat.ne_of_lt hshort)
      (by omega)
    rw [getRepositories, h]
    simp
  · intro hk hfull hshort hfuel
    obtain ⟨k', rfl⟩ : ∃ k', k = k' + 1 := ⟨k - 1, by omega⟩
    have h := paginateRun_terminates mserver
      (fun member => (enrich member).getD member) k' 1 fuel
      (fun n h1 h2 => hfull n h1 (by omega))
      (by
        have : 1 + k' = k' + 1 := by omega
        rw [this]
        exact Nat.ne_of_lt hshort)
      (by omega)
    rw [getOrganizationMembers, h]
  · intro hfull
    exact paginateRun_all_full server id hfull fuel 1
  · intro hfull
    exact paginateRun_all_full mserver _ hfull fuel 1

/-- Repositories used by the C6 witness. -/
def c6RepoA : Repository := { name := "a", default_branch := "m" }

/-- Second repository used by the C6 witness. -/
def c6RepoB : Repository := { name := "b", default_branch := "m" }

/-- Server used by the C6 witness: page 1 is full (100 items), page 2 is
short (1 item). -/
def c6Server : Nat → Nat → List Repository := fun _ page =>
  if page = 1 then List.replicate 100 c6RepoA else [c6RepoB]

/-- Server used by the C6 witness whose every page is exactly full. -/
def c6FullServer : Nat → Nat → List Repository := fun _ _ => List.replicate 100 c6RepoA

/-- Trivial member server used to instantiate the C6 theorem. -/
def c6MServer : Nat → Nat → List User := fun _ _ => []

theorem C6_witness :
    getRepositories c6Server 2 =
      ((List.range' 1 2).map fun p => (100, p),
       some (((List.range' 1 2).map fun p => c6Server 100 p).flatten)) ∧
    (getRepositories c6FullServer 3).2 = none := by
  constructor
  · exact (C6_pagination_loops c6Server c6MServer (fun u => some u) 2 2).2.2.1
      (by omega)
      (fun n h1 h2 => by
        have hn : n = 1 := by omega
        subst hn
        simp [c6Server])
      (by simp [c6Server])
      (by omega)
  · exact (C6_pagination_loops c6FullServer c6MServer (fun u => some u) 3 1).2.2.2.2.1
      (fun n => by simp [c6FullServer])

lemma computeOrganizationStats_recent (orgLogin : String) (repositories : List Repository)
    (members : List User) (userStats : List UserStatsEntry) (codeStats : List CodeStats)
    (recentCommits : List Commit) (recentPullRequests : List PullRequest) :
    (computeOrganizationStats orgLogin repositories members userStats codeStats
        recentCommits recentPullRequests).recentActivity.commits.length ≤ 50 ∧
    List.Sorted commitDateGE
      (computeOrganizationStats orgLogin repositories members userStats codeStats
        recentCommits recentPullRequests).recentActivity.commits ∧
    (computeOrganizationStats orgLogin repositories members userStats codeStats
        recentCommits recentPullRequests).recentActivity.pullRequests.length ≤ 50 ∧
    List.Sorted prDateGE
      (computeOrganizationStats orgLogin repositories members userStats codeStats
        recentCommits recentPullRequests).recentActivity.pullRequests := by
  refine ⟨?_, ?_, ?_, ?_⟩
  · simp only [computeOrganizationStats, List.length_take]
    exact min_le_left _ _
  · simp only [computeOrganizationStats]
    exact List.Pairwise.sublist (List.take_sublist _ _)
      (List.sorted_insertionSort commitDateGE recentCommits)
  · simp only [computeOrganizationStats, List.length_take]
    exact min_le_left _ _
  · simp only [computeOrganizationStats]
    exact List.Pairwise.sublist (List.take_sublist _ _)
      (List.sorted_insertionSort prDateGE recentPullRequests)

/-- C7: the recent-activity lists of every `OrganizationStats` — both as
produced by `computeOrganizationStats` on any pooled inputs and as returned
by a successful `performFullAnalysis` run — hold at most 50 entries each and
are sorted non-increasing by date (author date for commits, creation date
for pull requests). -/
theorem C7_recent_activity_bounded_sorted :
    (∀ (orgLogin : String) (repositories : List Repository) (members : List User)
        (userStats : List UserStatsEntry) (codeStats : List CodeStats)
        (recentCommits : List Commit) (recentPullRequests : List PullRequest),
      (computeOrganizationStats orgLogin repositories members userStats codeStats
          recentCommits recentPullRequests).recentActivity.commits.length ≤ 50 ∧
      List.Sorted commitDateGE
        (computeOrganizationStats orgLogin repositories members userStats codeStats
          recentCommits recentPullRequests).recentActivity.commits ∧
      (computeOrganizationStats orgLogin repositories members userStats codeStats
          recentCommits recentPullRequests).recentActivity.pullRequests.length ≤ 50 ∧
      List.Sorted prDateGE
        (computeOrganizationStats orgLogin repositories members userStats codeStats
          recentCommits recentPullRequests).recentActivity.pullRequests) ∧
    (∀ (env : AnalysisEnv) (stats : OrganizationStats),
      (performFullAnalysis env).2 = Except.ok stats →
      stats.recentActivity.commits.length ≤ 50 ∧
      List.Sorted commitDateGE stats.recentActivity.commits ∧
      stats.recentActivity.pullRequests.length ≤ 50 ∧
      List.Sorted prDateGE stats.recentActivity.pullRequests) := by
  refine ⟨computeOrganizationStats_recent, ?_⟩
  intro env stats h
  rcases henv : env.orgResult with e | org
  · simp only [performFullAnalysis, henv] at h
    exact Except.noConfusion h
  · rcases hrep : env.reposResult with e | repositories
    · simp only [performFullAnalysis, henv, hrep] at h
      exact Except.noConfusion h
    · rcases hmem : env.membersResult with e | members
      · simp only [performFullAnalysis, henv, hrep, hmem] at h
        exact Except.noConfusion h
      · simp only [performFullAnalysis, henv, hrep, hmem, Except.ok.injEq] at h
        rw [← h]
        exact computeOrganizationStats_recent _ _ _ _ _ _ _

/-- Environment used by the C7 witness: an empty organization whose critical
fetches all succeed. -/
def c7Env : AnalysisEnv :=
  { orgResult := .ok { login := "acme" }
    reposResult := .ok []
    membersResult := .ok []
    filesOf := fun _ => []
    commitsOf := fun _ => []
    pullRequestsOf := fun _ => [] }

/-- The statistics record that `performFullAnalysis` returns on `c7Env`. -/
def c7Stats : OrganizationStats :=
  computeOrganizationStats "acme" [] [] (computeUserStats [] [] []) [] [] []

theorem C7_witness :
    (performFullAnalysis c7Env).2 = Except.ok c7Stats ∧
    c7Stats.recentActivity.commits.length ≤ 50 ∧
    List.Sorted commitDateGE c7Stats.recentActivity.commits ∧
    c7Stats.recentActivity.pullRequests.length ≤ 50 ∧
    List.Sorted prDateGE c7Stats.recentActivity.pullRequests := by
  have h := C7_recent_activity_bounded_sorted.2 c7Env c7Stats rfl
  exact ⟨rfl, h.1, h.2.1, h.2.2.1, h.2.2.2⟩

/-- C9: when the organization lookup fails, `performFullAnalysis` returns
that error directly: the only step performed is the organization fetch, no
repository is analyzed, and no statistics record is produced. -/
theorem C9_org_error_short_circuits (env : AnalysisEnv) (e : String)
    (h : env.orgResult = Except.error e) :
    performFullAnalysis env = ([AnalysisStep.fetchOrg], Except.error e) ∧
    (∀ name, AnalysisStep.analyzeRepo name ∉ (performFullAnalysis env).1) ∧
    (∀ stats, (performFullAnalysis env).2 ≠ Except.ok stats) := by
  have hperf : performFullAnalysis env = ([AnalysisStep.fetchOrg], Except.error e) := by
    simp only [performFullAnalysis, h]
  refine ⟨hperf, ?_, ?_⟩
  · intro name
    rw [hperf]
    simp
  · intro stats
    rw [hperf]
    simp

/-- Environment used by the C9 witness: the organization lookup throws. -/
def c9Env : AnalysisEnv :=
  { orgResult := .error "GitHub API error: 404 Not Found"
    reposResult := .ok []
    membersResult := .ok []
    filesOf := fun _ => []
    commitsOf := fun _ => []
    pullRequestsOf := fun _ => [] }

theorem C9_witness :
    performFullAnalysis c9Env =
      ([AnalysisStep.fetchOrg], Except.error "GitHub API error: 404 Not Found") ∧
    AnalysisStep.analyzeRepo "repo" ∉ (performFullAnalysis c9Env).1 := by
  have h := C9_org_error_short_circuits c9Env "GitHub API error: 404 Not Found" rfl
  exact ⟨h.1, h.2.1 "repo"⟩

lemma mapGet_cons {β : Type} (a : String) (b : β) (rest : List (String × β)) (k : String) :
    mapGet ((a, b) :: rest) k = if a = k then some b else mapGet rest k := by
  by_cases h : a = k
  · simp only [mapGet]
    rw [List.find?_cons_of_pos _ (by simpa using h)]
    simp [h]
  · simp only [mapGet]
    rw [List.find?_cons_of_neg _ (by simpa using h)]
    simp [h]

lemma mapGet_mapSet {β : Type} (m : List (String × β)) (k : String) (v : β) (k' : String) :
    mapGet (mapSet m k v) k' = if k' = k then some v else mapGet m k' := by
  induction m with
  | nil =>
    simp only [mapSet, mapGet_cons]
    by_cases h : k' = k
    · simp [h]
    · have h' : ¬k = k' := fun hh => h hh.symm
      simp [h, h', mapGet]
  | cons hd rest ih =>
    obtain ⟨a, b⟩ := hd
    simp only [mapSet]
    by_cases ha : a = k
    · rw [if_pos ha]
      subst ha
      by_cases h : k' = a
      · subst h
        simp [mapGet_cons]
      · have h' : ¬a = k' := fun hh => h hh.symm
        simp [mapGet_cons, h, h']
    · rw [if_neg ha]
      by_cases h : k' = a
      · subst h
        simp [mapGet_cons, ha]
      · have h' : ¬a = k' := fun hh => h hh.symm
        simp [mapGet_cons, h', ih]

/-- The `commits` tally recorded for one login (0 when absent). -/
def commitsAt (m : List (String × UserStatsEntry)) (l : String) : Nat :=
  ((mapGet m l).map fun s => s.commits).getD 0

lemma mapSet_isSome {β : Type} (m : List (String × β)) (k : String) (v : β) (k' : String)
    (h : (mapGet m k').isSome) : (mapGet (mapSet m k v) k').isSome := by
  rw [mapGet_mapSet]
  by_cases hk : k' = k
  · simp [hk]
  · simpa [hk] using h

lemma foldl_initStep_isSome :
    ∀ (members : List User) (m : List (String × UserStatsEntry)) (u : User),
      u ∈ members ∨ (mapGet m u.login).isSome →
      (mapGet
        (members.foldl
          (fun m member =>
            mapSet m member.login
              { user := member, commits := 0, pullRequests := 0, linesAdded := 0,
                linesDeleted := 0, lastActivity := 0 })
          m) u.login).isSome := by
  intro members
  induction members with
  | nil =>
    intro m u hu
    rcases hu with hu | hu
    · simp at hu
    · simpa using hu
  | cons member rest ih =>
    intro m u hu
    simp only [List.foldl_cons]
    rcases hu with hu | hu
    · rcases List.mem_cons.mp hu with hu | hu
      · subst hu
        refine ih _ u (Or.inr ?_)
        rw [mapGet_mapSet]
        simp
      · exact ih _ u (Or.inl hu)
    · exact ih _ u (Or.inr (mapSet_isSome _ _ _ _ hu))

lemma commitsFold_nil_isSome (members : List User) (u : User) (hu : u ∈ members) :
    (mapGet (initUserStats members) u.login).isSome :=
  foldl_initStep_isSome members [] u (Or.inl hu)

lemma processCommit_isSome (members : List User) (c : Commit)
    (m : List (String × UserStatsEntry)) (l : String)
    (h : (mapGet m l).isSome) : (mapGet (processCommit members m c) l).isSome := by
  simp only [processCommit]
  cases hf : findUserByEmail members c.authorEmail with
  | none => exact h
  | some u =>
    dsimp only
    split_ifs with hlogin
    · exact h
    · cases hs : mapGet m u.login with
      | none => exact h
      | some s =>
        dsimp only
        exact mapSet_isSome _ _ _ _ h

lemma commitsFold_isSome (members : List User) (cs : List Commit) (u : User)
    (hu : u ∈ members) : (mapGet (commitsFold members cs) u.login).isSome := by
  rw [commitsFold]
  induction cs using List.reverseRecOn with
  | nil => exact commitsFold_nil_isSome members u hu
  | append_singleton cs c ih =>
    rw [List.foldl_append]
    exact processCommit_isSome members c _ _ ih

lemma processCommit_effect (members : List User) (m : List (String × UserStatsEntry))
    (c : Commit) :
    (∀ u, findUserByEmail members c.authorEmail = some u → u.login ≠ "" →
      (mapGet m u.login).isSome →
      commitsAt (processCommit members m c) u.login = commitsAt m u.login + 1 ∧
      ∀ l, l ≠ u.login → commitsAt (processCommit members m c) l = commitsAt m l) ∧
    (findUserByEmail members c.authorEmail = none →
      ∀ l, commitsAt (processCommit members m c) l = commitsAt m l) := by
  constructor
  · intro u hf hlogin hsome
    obtain ⟨s, hs⟩ := Option.isSome_iff_exists.mp hsome
    simp only [processCommit, hf, if_neg hlogin, hs]
    constructor
    · simp [commitsAt, mapGet_mapSet, hs]
    · intro l hl
      simp [commitsAt, mapGet_mapSet, hl]
  · intro hf l
    simp [processCommit, hf]

/-- C8 amended: for a pooled commit processed by the commit loop of
`computeUserStats`, when some member's profile email equals the commit
author's email and the first such member's login is non-empty, that member's
commits tally is incremented by one and no other login's tally changes; when
the first such member's login is empty the truthiness guard skips the
update; when no member's email matches, no tally changes. -/
theorem C8_amended_commit_attribution (members : List User) (cs : List Commit) (c : Commit) :
    (∀ u, findUserByEmail members c.authorEmail = some u → u.login ≠ "" →
      commitsAt (commitsFold members (cs ++ [c])) u.login =
        commitsAt (commitsFold members cs) u.login + 1 ∧
      ∀ l, l ≠ u.login →
        commitsAt (commitsFold members (cs ++ [c])) l =
          commitsAt (commitsFold members cs) l) ∧
    (∀ u, findUserByEmail members c.authorEmail = some u → u.login = "" →
      ∀ l, commitsAt (commitsFold members (cs ++ [c])) l =
        commitsAt (commitsFold members cs) l) ∧
    (findUserByEmail members c.authorEmail = none →
      ∀ l, commitsAt (commitsFold members (cs ++ [c])) l =
        commitsAt (commitsFold members cs) l) := by
  have hfold : commitsFold members (cs ++ [c]) =
      processCommit members (commitsFold members cs) c := by
    simp [commitsFold, List.foldl_append]
  refine ⟨?_, ?_, ?_⟩
  · intro u hf hlogin
    have hu : u ∈ members := List.mem_of_find?_eq_some hf
    have hsome := commitsFold_isSome members cs u hu
    have h := (processCommit_effect members (commitsFold members cs) c).1 u hf hlogin hsome
    rw [hfold]
    exact h
  · intro u hf hlogin l
    have hskip : processCommit members (commitsFold members cs) c = commitsFold members cs := by
      simp only [processCommit, hf, if_pos hlogin]
    rw [hfold, hskip]
  · intro hf l
    rw [hfold]
    exact (processCommit_effect members (commitsFold members cs) c).2 hf l

/-- Member used by the C8 counterexample: the email matches but the login is
the empty string, which the truthiness guard treats as missing. -/
def c8Anon : User := { login := "", email := some "dev@example.com" }

/-- Commit used by the C8 counterexample. -/
def c8AnonCommit : Commit := { authorEmail := "dev@example.com", authorDate := 5 }

/-- C8 counterexample: a member whose profile email equals the commit
author's email but whose login is the empty string gets no increment — the
source checks `authorLogin && userStatsMap.has(authorLogin)` and the empty
login is falsy, so the claim as stated fails on this input. -/
theorem C8_counterexample :
    findUserByEmail [c8Anon] c8AnonCommit.authorEmail = some c8Anon ∧
    commitsAt (commitsFold [c8Anon] [c8AnonCommit]) c8Anon.login ≠
      commitsAt (commitsFold [c8Anon] []) c8Anon.login + 1 := by
  constructor
  · decide
  · decide

/-- First member used by the C8 witness. -/
def c8Alice : User := { login := "alice", email := some "a@x.com" }

/-- Second member used by the C8 witness. -/
def c8Bob : User := { login := "bob", email := some "b@x.com" }

/-- Commit used by the C8 witness, authored with the first member's email. -/
def c8Commit : Commit := { authorEmail := "a@x.com", authorDate := 3 }

theorem C8_witness :
    findUserByEmail [c8Alice, c8Bob] c8Commit.authorEmail = some c8Alice ∧
    commitsAt (commitsFold [c8Alice, c8Bob] ([] ++ [c8Commit])) "alice" =
      commitsAt (commitsFold [c8Alice, c8Bob] []) "alice" + 1 ∧
    commitsAt (commitsFold [c8Alice, c8Bob] ([] ++ [c8Commit])) "bob" =
      commitsAt (commitsFold [c8Alice, c8Bob] []) "bob" ∧
    commitsAt (commitsFold [c8Anon] ([] ++ [c8AnonCommit])) "" =
      commitsAt (commitsFold [c8Anon] []) "" := by
  have h := (C8_amended_commit_attribution [c8Alice, c8Bob] [] c8Commit).1 c8Alice
    (by decide) (by decide)
  have hskip := (C8_amended_commit_attribution [c8Anon] [] c8AnonCommit).2.1 c8Anon
    (by decide) (by decide) ""
  exact ⟨by decide, h.1, h.2 "bob" (by decide), hskip⟩
